import Mathlib

/-!
Shallow embedding of the TTL cache subsystem of kamipad
(src/kamipad-server/src/util/cache.rs) and of the singleton cache registry
built on top of it.

Modelling choices:
- `Instant` and `Duration` are modelled as `Nat`; `Instant::now()` becomes an
  explicit `now` argument to every operation that reads the clock.
- Rust `HashMap` fields are modelled as association lists with a
  lookup / insert / remove interface whose observable behaviour matches the
  hash map (insert overwrites, remove deletes the key).
- Rust `std::collections::BinaryHeap` is modelled as a `List` holding the
  backing vector, with `push`, `peek` and `pop` implemented by the sift
  algorithms of the standard library, parameterised by the element comparison.
  The comparison for `CacheKeyEntry` is translated literally from the
  source `Ord` implementation.
- `Arc<V>` is modelled as `V` (values are immutable in the model) and the
  `Mutex` around the store is modelled by operations being functions from
  store state to store state (operations are serialised by the lock).
-/

namespace Kamipad

/-- Instants are absolute points in time, modelled as natural numbers. -/
abbrev Instant := Nat

/-- Durations, modelled as natural numbers. -/
abbrev Duration := Nat

/-- Rust `a <= b` derived from an `Ord` implementation `cmp`: it holds exactly
when `cmp a b` is not `Greater`. -/
def cmpLe (cmp : α → α → Ordering) (a b : α) : Bool :=
  cmp a b != Ordering.gt

/-- Swap the elements at positions `i` and `j` of a list (identity when either
index is out of range), as `Vec::swap` does on the heap backing vector. -/
def listSwap (l : List α) (i j : Nat) : List α :=
  match l[i]?, l[j]? with
  | some a, some b => (l.set i b).set j a
  | _, _ => l

/-- Loop body of the `sift_up` routine of `std::collections::BinaryHeap`:
move the element at `pos` towards the root while it is strictly greater than
its parent. The loop variable `pos` strictly decreases on every iteration, so
the loop runs at most `pos` times; `fuel` is an explicit iteration budget and
any budget above `pos` yields the same result (proved below), which makes the
budgeted recursion an exact model of the while loop. -/
def siftUpGo (cmp : α → α → Ordering) : Nat → List α → Nat → Nat → List α
  | 0, l, _, _ => l
  | fuel + 1, l, start, pos =>
    if start < pos then
      match l[pos]?, l[(pos - 1) / 2]? with
      | some x, some p =>
        if cmpLe cmp x p then l
        else siftUpGo cmp fuel (listSwap l pos ((pos - 1) / 2)) start ((pos - 1) / 2)
      | _, _ => l
    else l

/-- The `sift_up` routine, run with a sufficient iteration budget. -/
def siftUp (cmp : α → α → Ordering) (l : List α) (start pos : Nat) : List α :=
  siftUpGo cmp (pos + 1) l start pos

/-- `BinaryHeap::push`: append the new element to the backing vector and sift
it up from the old length. -/
def heapPush (cmp : α → α → Ordering) (l : List α) (x : α) : List α :=
  siftUp cmp (l ++ [x]) 0 l.length

/-- `BinaryHeap::peek`: the root of the heap is the first element of the
backing vector. -/
def heapPeek (l : List α) : Option α :=
  l.head?

/-- The hole-walking loop of `BinaryHeap::sift_down_to_bottom`: move the hole
at `pos` to the bottom of the heap, always choosing the greater child, and
return the updated vector together with the final hole position. The measure
`l.length - pos` strictly decreases on every iteration (`List.set` preserves
the length and the chosen child is strictly larger than `pos`), so a budget
above that measure yields the same result (proved below). -/
def holeWalkGo (cmp : α → α → Ordering) : Nat → List α → Nat → List α × Nat
  | 0, l, pos => (l, pos)
  | fuel + 1, l, pos =>
    if 2 * pos + 2 < l.length then
      match l[2 * pos + 1]?, l[2 * pos + 2]? with
      | some a, some b =>
        if cmpLe cmp a b then holeWalkGo cmp fuel (l.set pos b) (2 * pos + 2)
        else holeWalkGo cmp fuel (l.set pos a) (2 * pos + 1)
      | _, _ => (l, pos)
    else if 2 * pos + 2 = l.length then
      match l[2 * pos + 1]? with
      | some c => (l.set pos c, 2 * pos + 1)
      | none => (l, pos)
    else (l, pos)

/-- The hole walk, run with a sufficient iteration budget. -/
def holeWalk (cmp : α → α → Ordering) (l : List α) (pos : Nat) : List α × Nat :=
  holeWalkGo cmp (l.length - pos + 1) l pos

/-- `BinaryHeap::sift_down_to_bottom`: take the element at `pos` out, walk the
hole to the bottom, put the element back in the hole and sift it up. -/
def siftDownToBottom (cmp : α → α → Ordering) (l : List α) (pos : Nat) : List α :=
  match l[pos]? with
  | none => l
  | some element =>
    let walked := holeWalk cmp l pos
    siftUp cmp (walked.1.set walked.2 element) pos walked.2

/-- `BinaryHeap::pop`: remove the last element of the backing vector; if the
vector is still non-empty, swap it with the root and sift the new root down.
Returns the removed maximal element together with the remaining heap. -/
def heapPop (cmp : α → α → Ordering) (l : List α) : Option (α × List α) :=
  match l.getLast?, l.dropLast with
  | none, _ => none
  | some last, [] => some (last, [])
  | some last, top :: rest => some (top, siftDownToBottom cmp (last :: rest) 0)

/-- An entry of the purge priority queue: the expiration recorded at push time
together with the key, mirroring `CacheKeyEntry` in the source. -/
structure CacheKeyEntry (K : Type) where
  expire : Instant
  key : K
deriving DecidableEq

/-- The `Ord` implementation for `CacheKeyEntry` translated literally from the
source: the body compares `other.expire` with `other.expire` (a
self-comparison), so every pair of entries compares as equal and the binary
heap is not actually ordered by expiration. -/
def cacheKeyEntryCmp {K : Type} (_self other : CacheKeyEntry K) : Ordering :=
  compare other.expire other.expire

/-- Association-list lookup, modelling `HashMap::get`. -/
def alistGet {K V : Type} [DecidableEq K] (l : List (K × V)) (k : K) : Option V :=
  match l with
  | [] => none
  | (k0, v) :: t => if k0 = k then some v else alistGet t k

/-- Association-list removal, modelling `HashMap::remove`. -/
def alistRemove {K V : Type} [DecidableEq K] (l : List (K × V)) (k : K) : List (K × V) :=
  l.filter (fun p => decide (p.1 ≠ k))

/-- Association-list insertion (overwriting), modelling `HashMap::insert`. -/
def alistInsert {K V : Type} [DecidableEq K] (l : List (K × V)) (k : K) (v : V) : List (K × V) :=
  (k, v) :: alistRemove l k

/-- The internal store of a cache, mirroring `CacheStore` in the source:
the authoritative expiration map `real_ttl`, the purge priority queue
`next_ttl` and the value map `map`. -/
structure CacheStore (K V : Type) where
  real_ttl : List (K × Instant)
  next_ttl : List (CacheKeyEntry K)
  map : List (K × V)
deriving DecidableEq

/-- The empty store produced by `Cache::default`. -/
def emptyStore {K V : Type} : CacheStore K V :=
  ⟨[], [], []⟩

/-- One-iteration-at-a-time model of the loop in `Cache::do_purge`, with an
explicit iteration budget `fuel`. Each iteration peeks the heap root; if it
has expired it pops it and removes the key from `real_ttl` and `map` exactly
when the popped expiration equals the authoritative one, then continues;
otherwise the loop stops. -/
def do_purge_fuel {K V : Type} [DecidableEq K] :
    Nat → Instant → CacheStore K V → CacheStore K V
  | 0, _, s => s
  | fuel + 1, now, s =>
    match heapPeek s.next_ttl with
    | none => s
    | some entry =>
      if entry.expire ≤ now then
        match heapPop cacheKeyEntryCmp s.next_ttl with
        | none => s
        | some (popped, rest) =>
          let s1 : CacheStore K V := { s with next_ttl := rest }
          let s2 : CacheStore K V :=
            match alistGet s1.real_ttl popped.key with
            | some actual =>
              if actual = popped.expire then
                { s1 with
                  real_ttl := alistRemove s1.real_ttl popped.key,
                  map := alistRemove s1.map popped.key }
              else s1
            | none => s1
          do_purge_fuel fuel now s2
      else s

/-- `Cache::do_purge`: the loop pops at most one heap element per iteration,
so a budget equal to the initial heap size always reaches the exit condition
(proved below); with that budget the bounded iteration equals the loop. -/
def do_purge {K V : Type} [DecidableEq K] (now : Instant) (s : CacheStore K V) :
    CacheStore K V :=
  do_purge_fuel s.next_ttl.length now s

/-- `Cache::save`: purge, then push the new (expiration, key) pair onto the
queue, record the authoritative expiration and insert the value. Returns the
shared value together with the new store. -/
def save {K V : Type} [DecidableEq K] (now : Instant) (key : K) (val : V)
    (ttl : Duration) (s : CacheStore K V) : V × CacheStore K V :=
  let expireAt := now + ttl
  let s1 := do_purge now s
  let s2 := { s1 with
    next_ttl := heapPush cacheKeyEntryCmp s1.next_ttl ⟨expireAt, key⟩ }
  let s3 := { s2 with real_ttl := alistInsert s2.real_ttl key expireAt }
  (val, { s3 with map := alistInsert s3.map key val })

/-- `Cache::get`: a plain lookup in the value map; the store is not changed
and no expiration is checked. -/
def get {K V : Type} [DecidableEq K] (key : K) (s : CacheStore K V) : Option V :=
  alistGet s.map key

/-- `Cache::get_and_renew`: look the key up; when present, overwrite only the
authoritative expiration with `now + ttl` and return the stored value;
when absent, return nothing. -/
def get_and_renew {K V : Type} [DecidableEq K] (now : Instant) (key : K)
    (ttl : Duration) (s : CacheStore K V) : Option V × CacheStore K V :=
  let expireAt := now + ttl
  match alistGet s.map key with
  | some v => (some v, { s with real_ttl := alistInsert s.real_ttl key expireAt })
  | none => (none, s)

/-- `Cache::purge`: run the purge loop on the locked store. -/
def purge {K V : Type} [DecidableEq K] (now : Instant) (s : CacheStore K V) :
    CacheStore K V :=
  do_purge now s

/-- The public operations of the cache, each carrying the clock value read by
`Instant::now()` at the moment the operation runs. -/
inductive Op (K V : Type) where
  | save (now : Instant) (key : K) (val : V) (ttl : Duration)
  | get (key : K)
  | renew (now : Instant) (key : K) (ttl : Duration)
  | purge (now : Instant)
deriving DecidableEq

/-- Effect of one operation on the store. `get` takes the lock, reads and
returns without writing, so its state effect is the identity. -/
def applyOp {K V : Type} [DecidableEq K] : Op K V → CacheStore K V → CacheStore K V
  | .save now k v ttl, s => (save now k v ttl s).2
  | .get _, s => s
  | .renew now k ttl, s => (get_and_renew now k ttl s).2
  | .purge now, s => do_purge now s

/-- Run a sequence of operations; under the store mutex every concurrent
history is serialised into such a sequence. -/
def execTrace {K V : Type} [DecidableEq K] (ops : List (Op K V))
    (s : CacheStore K V) : CacheStore K V :=
  ops.foldl (fun acc op => applyOp op acc) s

/-- Model of `std::any::TypeId::of::<(K, V)>()`: a type is represented by a
code (a natural number) and the identity of the ordered pair of types is the
ordered pair of their codes, which is injective over ordered pairs exactly as
`TypeId` is guaranteed to be unique per type. -/
structure TypeId where
  keyCode : Nat
  valCode : Nat
deriving DecidableEq

/-- State of a `CacheMap` registry. The Rust registry stores one heap
allocated `Cache` per type identity behind a type-erased pointer; allocation
is modelled by a `fresh` counter handing out store identifiers and `stores`
maps each identifier to the cache store it backs. Type-erased cache contents
are modelled with key and value both coded as `Nat`. The `init` flag mirrors
the lazy allocation of the outer hash map. -/
structure RegistryState where
  init : Bool
  table : List (TypeId × Nat)
  fresh : Nat
  stores : List (Nat × CacheStore Nat Nat)
deriving DecidableEq

/-- `CacheMap::default`: no outer map allocated yet, nothing registered. -/
def emptyRegistry : RegistryState :=
  ⟨false, [], 0, []⟩

/-- `CacheMap::get`: allocate the outer map on first use, then look the type
identity up; on a hit return the registered store handle, on a miss allocate
a fresh empty cache, register it under the identity and return its handle. -/
def regGet (tid : TypeId) (st : RegistryState) : Nat × RegistryState :=
  let st1 := if st.init then st else { st with init := true }
  match alistGet st1.table tid with
  | some p => (p, st1)
  | none =>
    (st1.fresh,
      { st1 with
        table := alistInsert st1.table tid st1.fresh,
        fresh := st1.fresh + 1,
        stores := alistInsert st1.stores st1.fresh emptyStore })

/-- The cache store a handle points at (handles returned by `regGet` always
point at an allocated store; the default is never reached for them). -/
def storeOf (st : RegistryState) (h : Nat) : CacheStore Nat Nat :=
  (alistGet st.stores h).getD emptyStore

/-- `Cache::save` called through a registry handle: the shared backing store
the handle points at is updated in place. -/
def regSave (h : Nat) (now k v ttl : Nat) (st : RegistryState) : RegistryState :=
  { st with stores := alistInsert st.stores h (save now k v ttl (storeOf st h)).2 }

/-- `Cache::get` called through a registry handle. -/
def regGetVal (st : RegistryState) (h : Nat) (k : Nat) : Option Nat :=
  get k (storeOf st h)

/-- Operations on the registry and on caches obtained from it. -/
inductive RegOp where
  | getCache (tid : TypeId)
  | saveThrough (h now k v ttl : Nat)
deriving DecidableEq

/-- Effect of one registry-level operation. -/
def applyRegOp : RegOp → RegistryState → RegistryState
  | .getCache tid, st => (regGet tid st).2
  | .saveThrough h now k v ttl, st => regSave h now k v ttl st

/-- Run a sequence of registry-level operations. -/
def applyRegOps (ops : List RegOp) (st : RegistryState) : RegistryState :=
  ops.foldl (fun acc op => applyRegOp op acc) st

/-- Well-formedness of a registry state: registered handles are below the
allocation counter and distinct identities are registered to distinct
handles. Holds for the empty registry and is preserved by every operation. -/
def RegWF (st : RegistryState) : Prop :=
  (∀ p ∈ st.table, p.2 < st.fresh) ∧
  (∀ p ∈ st.table, ∀ q ∈ st.table, p.1 ≠ q.1 → p.2 ≠ q.2)

/-- The key-set invariant of claim C8: every key present in the value map
also has an authoritative expiration recorded in `real_ttl`. -/
def KeyInv {K V : Type} [DecidableEq K] (s : CacheStore K V) : Prop :=
  ∀ k : K, (alistGet s.map k).isSome = true → (alistGet s.real_ttl k).isSome = true

/-- Side conditions on an operation for the concurrent-insertion scenario of
claim C9: operations run at times up to `T`, every save stores the value
`val` determines for its key and has a deadline strictly beyond `T`, and no
renewals occur (the scenario issues only save, get and purge). -/
def opOk {K V : Type} (T : Nat) (val : K → V) : Op K V → Prop
  | .save now k v ttl => v = val k ∧ now ≤ T ∧ T < now + ttl
  | .get _ => True
  | .renew _ _ _ => False
  | .purge now => now ≤ T

/-- Failing input for claim C1: key 1 saved at time 0 with TTL 1000, key 2
saved at time 0 with TTL 0 (deadline 0), then a purge at time 20. -/
def c1Trace : List (Op Nat Nat) :=
  [Op.save 0 1 10 1000, Op.save 0 2 20 0, Op.purge 20]

/-- The store reached by the C1 failing input. -/
def c1State : CacheStore Nat Nat :=
  execTrace c1Trace emptyStore

/-- The store reached by the C1 failing input just before its purge. -/
def c1StateBeforePurge : CacheStore Nat Nat :=
  execTrace [Op.save 0 1 10 1000, Op.save 0 2 20 0] emptyStore

/-- Concrete scenario of claim C2: key 100 saved at time 0 with TTL 10 and
value 1, overwritten at time 5 with TTL 1000 and value 2, purged at time 20
(after the first deadline, before the second). -/
def c2Trace : List (Op Nat Nat) :=
  [Op.save 0 100 1 10, Op.save 5 100 2 1000, Op.purge 20]

/-- The store reached by the C2 scenario. -/
def c2State : CacheStore Nat Nat :=
  execTrace c2Trace emptyStore

/-- Counterexample input for claim C3: key 1 saved at time 0 with TTL 10,
then renewed at time 0 with TTL 100. -/
def c3Trace : List (Op Nat Nat) :=
  [Op.save 0 1 5 10, Op.renew 0 1 100]

/-- The store reached by the C3 counterexample input. -/
def c3State : CacheStore Nat Nat :=
  execTrace c3Trace emptyStore

/-- Concrete scenario of claim C7: keys 1 and 2 saved at time 0 (TTLs 1000
and 40), then key 3 saved at time 50 with TTL 0. -/
def c7Trace : List (Op Nat Nat) :=
  [Op.save 0 1 10 1000, Op.save 0 2 20 40, Op.save 50 3 30 0]

/-- The store reached by the C7 scenario. -/
def c7State : CacheStore Nat Nat :=
  execTrace c7Trace emptyStore

/-! Helper lemmas about the heap primitives. -/

theorem cmpLe_cacheKeyEntryCmp {K : Type} (a b : CacheKeyEntry K) :
    cmpLe cacheKeyEntryCmp a b = true := by
  have h : compare b.expire b.expire = Ordering.eq := Nat.compare_eq_eq.mpr rfl
  simp [cmpLe, cacheKeyEntryCmp, h]
  rfl

theorem length_listSwap (l : List α) (i j : Nat) : (listSwap l i j).length = l.length := by
  unfold listSwap
  split <;> simp

theorem mem_of_mem_listSwap {l : List α} {i j : Nat} {y : α} (h : y ∈ listSwap l i j) :
    y ∈ l := by
  unfold listSwap at h
  split at h
  next a b hi hj =>
    rcases List.mem_or_eq_of_mem_set h with h1 | h1
    · rcases List.mem_or_eq_of_mem_set h1 with h2 | h2
      · exact h2
      · exact h2 ▸ List.getElem?_mem hj
    · exact h1 ▸ List.getElem?_mem hi
  next => exact h

theorem length_siftUpGo (cmp : α → α → Ordering) (fuel : Nat) (l : List α) (start pos : Nat) :
    (siftUpGo cmp fuel l start pos).length = l.length := by
  induction fuel generalizing l pos with
  | zero => rfl
  | succ fuel ih =>
    unfold siftUpGo
    split
    · split
      · split
        · rfl
        · rw [ih, length_listSwap]
      · rfl
    · rfl

theorem mem_of_mem_siftUpGo {cmp : α → α → Ordering} {fuel : Nat} {l : List α}
    {start pos : Nat} {y : α} (h : y ∈ siftUpGo cmp fuel l start pos) : y ∈ l := by
  induction fuel generalizing l pos with
  | zero => exact h
  | succ fuel ih =>
    unfold siftUpGo at h
    split at h
    · split at h
      · split at h
        · exact h
        · exact mem_of_mem_listSwap (ih h)
      · exact h
    · exact h

theorem siftUpGo_stable (cmp : α → α → Ordering) (f1 f2 : Nat) (l : List α) (start pos : Nat)
    (h1 : pos < f1) (h2 : pos < f2) :
    siftUpGo cmp f1 l start pos = siftUpGo cmp f2 l start pos := by
  induction f1 generalizing f2 l pos with
  | zero => omega
  | succ f1 ih =>
    cases f2 with
    | zero => omega
    | succ f2 =>
      unfold siftUpGo
      split
      next hlt =>
        split
        · split
          · rfl
          · apply ih
            · have := Nat.div_le_self (pos - 1) 2
              omega
            · have := Nat.div_le_self (pos - 1) 2
              omega
        · rfl
      next => rfl

theorem length_siftUp (cmp : α → α → Ordering) (l : List α) (start pos : Nat) :
    (siftUp cmp l start pos).length = l.length :=
  length_siftUpGo cmp (pos + 1) l start pos

theorem mem_of_mem_siftUp {cmp : α → α → Ordering} {l : List α} {start pos : Nat} {y : α}
    (h : y ∈ siftUp cmp l start pos) : y ∈ l :=
  mem_of_mem_siftUpGo h

theorem length_holeWalkGo (cmp : α → α → Ordering) (fuel : Nat) (l : List α) (pos : Nat) :
    (holeWalkGo cmp fuel l pos).1.length = l.length := by
  induction fuel generalizing l pos with
  | zero => rfl
  | succ fuel ih =>
    unfold holeWalkGo
    split
    · split
      · split
        · rw [ih, List.length_set]
        · rw [ih, List.length_set]
      · rfl
    · split
      · split
        · simp [List.length_set]
        · rfl
      · rfl

theorem mem_of_mem_holeWalkGo {cmp : α → α → Ordering} {fuel : Nat} {l : List α}
    {pos : Nat} {y : α} (h : y ∈ (holeWalkGo cmp fuel l pos).1) : y ∈ l := by
  induction fuel generalizing l pos with
  | zero => exact h
  | succ fuel ih =>
    unfold holeWalkGo at h
    split at h
    · split at h
      next a b ha hb =>
        split at h
        · rcases List.mem_or_eq_of_mem_set (ih h) with h1 | h1
          · exact h1
          · exact h1 ▸ List.getElem?_mem hb
        · rcases List.mem_or_eq_of_mem_set (ih h) with h1 | h1
          · exact h1
          · exact h1 ▸ List.getElem?_mem ha
      next => exact h
    · split at h
      · split at h
        next c hc =>
          rcases List.mem_or_eq_of_mem_set h with h1 | h1
          · exact h1
          · exact h1 ▸ List.getElem?_mem hc
        next => exact h
      · exact h

theorem holeWalkGo_stable (cmp : α → α → Ordering) (f1 f2 : Nat) (l : List α) (pos : Nat)
    (h1 : l.length - pos < f1) (h2 : l.length - pos < f2) :
    holeWalkGo cmp f1 l pos = holeWalkGo cmp f2 l pos := by
  induction f1 generalizing f2 l pos with
  | zero => omega
  | succ f1 ih =>
    cases f2 with
    | zero => omega
    | succ f2 =>
      unfold holeWalkGo
      split
      next hcond =>
        split
        · split
          · apply ih
            · simp only [List.length_set]
              omega
            · simp only [List.length_set]
              omega
          · apply ih
            · simp only [List.length_set]
              omega
            · simp only [List.length_set]
              omega
        · rfl
      next => rfl

theorem length_holeWalk (cmp : α → α → Ordering) (l : List α) (pos : Nat) :
    (holeWalk cmp l pos).1.length = l.length :=
  length_holeWalkGo cmp _ l pos

theorem mem_of_mem_holeWalk {cmp : α → α → Ordering} {l : List α} {pos : Nat} {y : α}
    (h : y ∈ (holeWalk cmp l pos).1) : y ∈ l :=
  mem_of_mem_holeWalkGo h

theorem length_siftDownToBottom (cmp : α → α → Ordering) (l : List α) (pos : Nat) :
    (siftDownToBottom cmp l pos).length = l.length := by
  unfold siftDownToBottom
  rcases hp : l[pos]? with _ | e
  · rfl
  · simp only [length_siftUp, List.length_set, length_holeWalk]

theorem mem_of_mem_siftDownToBottom {cmp : α → α → Ordering} {l : List α} {pos : Nat} {y : α}
    (h : y ∈ siftDownToBottom cmp l pos) : y ∈ l := by
  unfold siftDownToBottom at h
  rcases hp : l[pos]? with _ | e
  · rw [hp] at h; exact h
  · rw [hp] at h
    have h1 := mem_of_mem_siftUp h
    rcases List.mem_or_eq_of_mem_set h1 with h2 | h2
    · exact mem_of_mem_holeWalk h2
    · exact h2 ▸ List.getElem?_mem hp

theorem heapPop_length {cmp : α → α → Ordering} {l rest : List α} {x : α}
    (h : heapPop cmp l = some (x, rest)) : rest.length + 1 = l.length := by
  unfold heapPop at h
  rcases hl : l.getLast? with _ | last
  · rw [hl] at h; cases h
  · rw [hl] at h
    rcases hd : l.dropLast with _ | ⟨top, tl⟩
    · rw [hd] at h
      cases h
      rcases l with _ | ⟨a, t⟩
      · simp at hl
      · rcases t with _ | ⟨b, t2⟩
        · rfl
        · simp at hd
    · rw [hd] at h
      cases h
      have h2 := List.length_dropLast l
      rw [hd] at h2
      have h3 : (siftDownToBottom cmp (last :: tl) 0).length = tl.length + 1 := by
        rw [length_siftDownToBottom]
        rfl
      rcases l with _ | ⟨a, t⟩
      · simp at hl
      · simp at h2
        rw [h3]
        simp
        omega

theorem heapPop_mem_of_mem_rest {cmp : α → α → Ordering} {l rest : List α} {x y : α}
    (h : heapPop cmp l = some (x, rest)) (hy : y ∈ rest) : y ∈ l := by
  unfold heapPop at h
  rcases hl : l.getLast? with _ | last
  · rw [hl] at h; cases h
  · rw [hl] at h
    rcases hd : l.dropLast with _ | ⟨top, tl⟩
    · rw [hd] at h
      cases h
      cases hy
    · rw [hd] at h
      cases h
      have h1 := mem_of_mem_siftDownToBottom hy
      rcases List.mem_cons.mp h1 with h1 | h1
      · exact h1 ▸ List.mem_of_mem_getLast? hl
      · have : y ∈ l.dropLast := by rw [hd]; exact List.mem_cons_of_mem _ h1
        exact (List.dropLast_sublist l).mem this

theorem heapPop_fst_mem {cmp : α → α → Ordering} {l rest : List α} {x : α}
    (h : heapPop cmp l = some (x, rest)) : x ∈ l := by
  unfold heapPop at h
  rcases hl : l.getLast? with _ | last
  · rw [hl] at h; cases h
  · rw [hl] at h
    rcases hd : l.dropLast with _ | ⟨top, tl⟩
    · rw [hd] at h
      cases h
      exact List.mem_of_mem_getLast? hl
    · rw [hd] at h
      cases h
      have : x ∈ l.dropLast := by rw [hd]; exact List.mem_cons_self _ _
      exact (List.dropLast_sublist l).mem this

theorem heapPeek_mem {l : List α} {e : α} (h : heapPeek l = some e) : e ∈ l := by
  unfold heapPeek at h
  exact List.mem_of_mem_head? h

theorem heapPush_eq_append {K : Type} (l : List (CacheKeyEntry K)) (x : CacheKeyEntry K) :
    heapPush cacheKeyEntryCmp l x = l ++ [x] := by
  unfold heapPush siftUp
  rcases Nat.eq_zero_or_pos l.length with h | h
  · unfold siftUpGo
    simp [h]
  · have hx : (l ++ [x])[l.length]? = some x := List.getElem?_concat_length l x
    have hlt2 : (l.length - 1) / 2 < (l ++ [x]).length := by
      have := Nat.div_le_self (l.length - 1) 2
      simp
      omega
    have hpar := List.getElem?_eq_getElem hlt2
    unfold siftUpGo
    rw [if_pos h]
    rw [hx, hpar]
    simp only []
    rw [if_pos (cmpLe_cacheKeyEntryCmp _ _)]

/-! Helper lemmas about the association-list primitives. -/

theorem alistGet_insert_self {K V : Type} [DecidableEq K] (l : List (K × V)) (k : K) (v : V) :
    alistGet (alistInsert l k v) k = some v := by
  simp [alistInsert, alistGet]

theorem alistGet_remove_self {K V : Type} [DecidableEq K] (l : List (K × V)) (k : K) :
    alistGet (alistRemove l k) k = none := by
  induction l with
  | nil => rfl
  | cons p t ih =>
    by_cases h : p.1 = k
    · simpa [alistRemove, List.filter_cons, h] using ih
    · simpa [alistRemove, List.filter_cons, h, alistGet] using ih

theorem alistGet_remove_ne {K V : Type} [DecidableEq K] (l : List (K × V)) (k k1 : K)
    (h : k1 ≠ k) : alistGet (alistRemove l k) k1 = alistGet l k1 := by
  induction l with
  | nil => rfl
  | cons p t ih =>
    rcases p with ⟨k0, v0⟩
    have hk1 : ¬k = k1 := fun he => h he.symm
    by_cases hp : k0 = k
    · simpa [alistRemove, List.filter_cons, hp, alistGet, hk1] using ih
    · by_cases hq : k0 = k1
      · simp [alistRemove, List.filter_cons, hp, alistGet, hq, h]
      · simpa [alistRemove, List.filter_cons, hp, alistGet, hq] using ih

theorem alistGet_insert_ne {K V : Type} [DecidableEq K] (l : List (K × V)) (k k1 : K) (v : V)
    (h : k1 ≠ k) : alistGet (alistInsert l k v) k1 = alistGet l k1 := by
  have hk : ¬k = k1 := fun he => h he.symm
  simp only [alistInsert, alistGet, if_neg hk]
  exact alistGet_remove_ne l k k1 h

theorem alistGet_mem {K V : Type} [DecidableEq K] {l : List (K × V)} {k : K} {v : V}
    (h : alistGet l k = some v) : (k, v) ∈ l := by
  induction l with
  | nil => cases h
  | cons p t ih =>
    rcases p with ⟨k0, v0⟩
    by_cases hk : k0 = k
    · subst hk
      simp [alistGet] at h
      subst h
      exact List.mem_cons_self _ _
    · simp [alistGet, hk] at h
      exact List.mem_cons_of_mem _ (ih h)

/-! Helper lemmas about the purge loop. -/

theorem do_purge_fuel_noop {K V : Type} [DecidableEq K] (fuel now : Nat) (s : CacheStore K V)
    (h : ∀ q ∈ s.next_ttl, now < q.expire) : do_purge_fuel fuel now s = s := by
  cases fuel with
  | zero => rfl
  | succ fuel =>
    rcases hp : heapPeek s.next_ttl with _ | entry
    · unfold do_purge_fuel
      rw [hp]
    · have hlt := h entry (heapPeek_mem hp)
      unfold do_purge_fuel
      rw [hp]
      simp [Nat.not_le.mpr hlt]

theorem do_purge_fuel_frame {K V : Type} [DecidableEq K] (fuel now : Nat)
    (s : CacheStore K V) (k : K) (e : Nat)
    (hrt : alistGet s.real_ttl k = some e)
    (hq : ∀ q ∈ s.next_ttl, q.key = k → q.expire ≠ e) :
    alistGet (do_purge_fuel fuel now s).real_ttl k = some e ∧
    alistGet (do_purge_fuel fuel now s).map k = alistGet s.map k := by
  induction fuel generalizing s with
  | zero => exact ⟨hrt, rfl⟩
  | succ fuel ih =>
    rcases hp : heapPeek s.next_ttl with _ | entry
    · unfold do_purge_fuel
      rw [hp]
      exact ⟨hrt, rfl⟩
    · unfold do_purge_fuel
      rw [hp]
      simp only []
      by_cases hexp : entry.expire ≤ now
      · rw [if_pos hexp]
        rcases hpop : heapPop cacheKeyEntryCmp s.next_ttl with _ | ⟨popped, rest⟩
        · simp only []
          exact ⟨hrt, trivial⟩
        · have hrest : ∀ q ∈ rest, q.key = k → q.expire ≠ e :=
            fun q hq1 => hq q (heapPop_mem_of_mem_rest hpop hq1)
          have hpm : popped ∈ s.next_ttl := heapPop_fst_mem hpop
          rcases hact : alistGet s.real_ttl popped.key with _ | actual
          · simp only [hact]
            exact ih _ hrt hrest
          · simp only [hact]
            by_cases hmatch : actual = popped.expire
            · rw [if_pos hmatch]
              by_cases hkk : popped.key = k
              · exfalso
                rw [hkk] at hact
                rw [hact] at hrt
                cases hrt
                exact hq popped hpm hkk hmatch.symm
              · have h1 : alistGet (alistRemove s.real_ttl popped.key) k = some e := by
                  rw [alistGet_remove_ne _ _ _ (fun he => hkk he.symm)]
                  exact hrt
                have h2 := ih { s with
                    next_ttl := rest,
                    real_ttl := alistRemove s.real_ttl popped.key,
                    map := alistRemove s.map popped.key } h1 hrest
                refine ⟨h2.1, ?_⟩
                rw [h2.2]
                exact alistGet_remove_ne _ _ _ (fun he => hkk he.symm)
            · rw [if_neg hmatch]
              exact ih _ hrt hrest
      · rw [if_neg hexp]
        exact ⟨hrt, rfl⟩

theorem do_purge_fuel_congr {K V : Type} [DecidableEq K] (f1 f2 now : Nat)
    (s : CacheStore K V) (h1 : s.next_ttl.length ≤ f1) (h2 : s.next_ttl.length ≤ f2) :
    do_purge_fuel f1 now s = do_purge_fuel f2 now s := by
  induction f1 generalizing f2 s with
  | zero =>
    have hnil : s.next_ttl = [] := List.length_eq_zero.mp (Nat.le_zero.mp h1)
    cases f2 with
    | zero => rfl
    | succ f2 =>
      unfold do_purge_fuel
      rw [show heapPeek s.next_ttl = none from by rw [hnil]; rfl]
  | succ f1 ih =>
    cases f2 with
    | zero =>
      have hnil : s.next_ttl = [] := List.length_eq_zero.mp (Nat.le_zero.mp h2)
      unfold do_purge_fuel
      rw [show heapPeek s.next_ttl = none from by rw [hnil]; rfl]
    | succ f2 =>
      rcases hp : heapPeek s.next_ttl with _ | entry
      · unfold do_purge_fuel
        rw [hp]
      · unfold do_purge_fuel
        rw [hp]
        simp only []
        by_cases hexp : entry.expire ≤ now
        · simp only [if_pos hexp]
          rcases hpop : heapPop cacheKeyEntryCmp s.next_ttl with _ | ⟨popped, rest⟩
          · simp only []
          · simp only []
            have hlen := heapPop_length hpop
            rcases hact : alistGet s.real_ttl popped.key with _ | actual
            · simp only [hact]
              apply ih
              · show rest.length ≤ f1
                omega
              · show rest.length ≤ f2
                omega
            · simp only [hact]
              by_cases hmatch : actual = popped.expire
              · simp only [if_pos hmatch]
                apply ih
                · show rest.length ≤ f1
                  omega
                · show rest.length ≤ f2
                  omega
              · simp only [if_neg hmatch]
                apply ih
                · show rest.length ≤ f1
                  omega
                · show rest.length ≤ f2
                  omega
        · simp only [if_neg hexp]

theorem save_snd_unfold {K V : Type} [DecidableEq K] (now : Nat) (k : K) (v : V) (ttl : Nat)
    (s : CacheStore K V) :
    (save now k v ttl s).2 =
      { real_ttl := alistInsert (do_purge now s).real_ttl k (now + ttl),
        next_ttl := heapPush cacheKeyEntryCmp (do_purge now s).next_ttl ⟨now + ttl, k⟩,
        map := alistInsert (do_purge now s).map k v } := rfl

theorem save_fst {K V : Type} [DecidableEq K] (now : Nat) (k : K) (v : V) (ttl : Nat)
    (s : CacheStore K V) : (save now k v ttl s).1 = v := rfl

theorem get_and_renew_of_some {K V : Type} [DecidableEq K] {now : Nat} {k : K} {ttl : Nat}
    {s : CacheStore K V} {v : V} (h : alistGet s.map k = some v) :
    get_and_renew now k ttl s =
      (some v, { s with real_ttl := alistInsert s.real_ttl k (now + ttl) }) := by
  unfold get_and_renew
  rw [h]

theorem get_and_renew_of_none {K V : Type} [DecidableEq K] {now : Nat} {k : K} {ttl : Nat}
    {s : CacheStore K V} (h : alistGet s.map k = none) :
    get_and_renew now k ttl s = (none, s) := by
  unfold get_and_renew
  rw [h]

theorem get_save_self {K V : Type} [DecidableEq K] (now : Nat) (k : K) (v : V) (ttl : Nat)
    (s : CacheStore K V) : get k (save now k v ttl s).2 = some v := by
  rw [get, save_snd_unfold]
  exact alistGet_insert_self _ _ _

/-! Preservation of the key-set invariant (claim C8). -/

theorem keyInv_do_purge_fuel {K V : Type} [DecidableEq K] (fuel now : Nat)
    (s : CacheStore K V) (h : KeyInv s) : KeyInv (do_purge_fuel fuel now s) := by
  induction fuel generalizing s with
  | zero => exact h
  | succ fuel ih =>
    rcases hp : heapPeek s.next_ttl with _ | entry
    · unfold do_purge_fuel
      rw [hp]
      exact h
    · unfold do_purge_fuel
      rw [hp]
      simp only []
      by_cases hexp : entry.expire ≤ now
      · rw [if_pos hexp]
        rcases hpop : heapPop cacheKeyEntryCmp s.next_ttl with _ | ⟨popped, rest⟩
        · simp only []
          exact h
        · simp only []
          rcases hact : alistGet s.real_ttl popped.key with _ | actual
          · simp only [hact]
            exact ih _ (fun k hk => h k hk)
          · simp only [hact]
            by_cases hmatch : actual = popped.expire
            · rw [if_pos hmatch]
              apply ih
              intro k hk
              by_cases hkk : k = popped.key
              · subst hkk
                rw [show alistGet (alistRemove s.map popped.key) popped.key = none from
                  alistGet_remove_self _ _] at hk
                cases hk
              · rw [alistGet_remove_ne _ _ _ hkk] at hk
                rw [alistGet_remove_ne _ _ _ hkk]
                exact h k hk
            · rw [if_neg hmatch]
              exact ih _ (fun k hk => h k hk)
      · rw [if_neg hexp]
        exact h

theorem keyInv_applyOp {K V : Type} [DecidableEq K] (op : Op K V) (s : CacheStore K V)
    (h : KeyInv s) : KeyInv (applyOp op s) := by
  cases op with
  | get k => exact h
  | purge now => exact keyInv_do_purge_fuel _ _ _ h
  | renew now k ttl =>
    show KeyInv (get_and_renew now k ttl s).2
    rcases hm : alistGet s.map k with _ | v
    · rw [get_and_renew_of_none hm]
      exact h
    · rw [get_and_renew_of_some hm]
      intro k1 hk1
      by_cases hkk : k1 = k
      · subst hkk
        rw [show alistGet (alistInsert s.real_ttl k1 (now + ttl)) k1 = some (now + ttl) from
          alistGet_insert_self _ _ _]
        rfl
      · rw [alistGet_insert_ne _ _ _ _ hkk]
        exact h k1 hk1
  | save now k v ttl =>
    have hpur : KeyInv (do_purge now s) := keyInv_do_purge_fuel _ _ _ h
    show KeyInv (save now k v ttl s).2
    rw [save_snd_unfold]
    intro k1 hk1
    by_cases hkk : k1 = k
    · subst hkk
      rw [show alistGet (alistInsert (do_purge now s).real_ttl k1 (now + ttl)) k1 =
        some (now + ttl) from alistGet_insert_self _ _ _]
      rfl
    · rw [alistGet_insert_ne _ _ _ _ hkk] at hk1
      rw [alistGet_insert_ne _ _ _ _ hkk]
      exact hpur k1 hk1

theorem keyInv_execTrace {K V : Type} [DecidableEq K] (tr : List (Op K V))
    (s : CacheStore K V) (h : KeyInv s) : KeyInv (execTrace tr s) := by
  induction tr generalizing s with
  | nil => exact h
  | cons op rest ih => exact ih _ (keyInv_applyOp op s h)

/-! Preservation lemmas for the concurrent-insertion scenario (claim C9). -/

theorem step_bound_preserve {K V : Type} [DecidableEq K] (T : Nat) (val : K → V)
    (op : Op K V) (s : CacheStore K V) (hok : opOk T val op)
    (hb : ∀ q ∈ s.next_ttl, T < q.expire) :
    (∀ q ∈ (applyOp op s).next_ttl, T < q.expire) ∧
    (∀ k, alistGet s.map k = some (val k) → alistGet (applyOp op s).map k = some (val k)) := by
  cases op with
  | get k => exact ⟨hb, fun k h => h⟩
  | renew now k ttl => exact hok.elim
  | purge now =>
    have hno : do_purge_fuel s.next_ttl.length now s = s :=
      do_purge_fuel_noop _ _ _ (fun q hq => lt_of_le_of_lt hok (hb q hq))
    show (∀ q ∈ (do_purge now s).next_ttl, T < q.expire) ∧
      (∀ k, alistGet s.map k = some (val k) →
        alistGet (do_purge now s).map k = some (val k))
    rw [do_purge, hno]
    exact ⟨hb, fun k h => h⟩
  | save now k v ttl =>
    obtain ⟨hv, hnow, httl⟩ := hok
    have hno : do_purge now s = s := by
      rw [do_purge]
      exact do_purge_fuel_noop _ _ _ (fun q hq => lt_of_le_of_lt hnow (hb q hq))
    show (∀ q ∈ (save now k v ttl s).2.next_ttl, T < q.expire) ∧
      (∀ k1, alistGet s.map k1 = some (val k1) →
        alistGet (save now k v ttl s).2.map k1 = some (val k1))
    rw [save_snd_unfold, hno]
    constructor
    · intro q hq
      rw [show heapPush cacheKeyEntryCmp s.next_ttl ⟨now + ttl, k⟩ =
        s.next_ttl ++ [⟨now + ttl, k⟩] from heapPush_eq_append _ _] at hq
      rcases List.mem_append.mp hq with hq | hq
      · exact hb q hq
      · rcases List.mem_singleton.mp hq with rfl
        exact httl
    · intro k1 h1
      by_cases hkk : k1 = k
      · subst hkk
        rw [alistGet_insert_self]
        rw [hv]
      · rw [alistGet_insert_ne _ _ _ _ hkk]
        exact h1

theorem trace_bound_preserve {K V : Type} [DecidableEq K] (T : Nat) (val : K → V)
    (tr : List (Op K V)) (s : CacheStore K V)
    (hops : ∀ op ∈ tr, opOk T val op)
    (hb : ∀ q ∈ s.next_ttl, T < q.expire) :
    (∀ q ∈ (execTrace tr s).next_ttl, T < q.expire) ∧
    (∀ k, alistGet s.map k = some (val k) →
      alistGet (execTrace tr s).map k = some (val k)) := by
  induction tr generalizing s with
  | nil => exact ⟨hb, fun k h => h⟩
  | cons op rest ih =>
    have h1 := step_bound_preserve T val op s (hops op (List.mem_cons_self _ _)) hb
    have h2 := ih (applyOp op s) (fun o ho => hops o (List.mem_cons_of_mem _ ho)) h1.1
    exact ⟨h2.1, fun k h => h2.2 k (h1.2 k h)⟩

theorem saved_key_retrievable {K V : Type} [DecidableEq K] (T : Nat) (val : K → V)
    (tr : List (Op K V)) (s : CacheStore K V) (k : K)
    (hops : ∀ op ∈ tr, opOk T val op)
    (hb : ∀ q ∈ s.next_ttl, T < q.expire)
    (hsv : ∃ now ttl, Op.save now k (val k) ttl ∈ tr) :
    alistGet (execTrace tr s).map k = some (val k) := by
  induction tr generalizing s with
  | nil =>
    rcases hsv with ⟨now, ttl, hmem⟩
    cases hmem
  | cons op rest ih =>
    rcases hsv with ⟨now, ttl, hmem⟩
    have hstep := step_bound_preserve T val op s (hops op (List.mem_cons_self _ _)) hb
    rcases List.mem_cons.mp hmem with he | hm
    · have hrest := trace_bound_preserve T val rest (applyOp op s)
        (fun o ho => hops o (List.mem_cons_of_mem _ ho)) hstep.1
      apply hrest.2
      rw [← he]
      show alistGet (save now k (val k) ttl s).2.map k = some (val k)
      rw [save_snd_unfold]
      exact alistGet_insert_self _ _ _
    · exact ih (applyOp op s) (fun o ho => hops o (List.mem_cons_of_mem _ ho))
        hstep.1 ⟨now, ttl, hm⟩

/-! Helper lemmas about the registry. -/

theorem regGet_hit {st : RegistryState} {tid : TypeId} {p : Nat}
    (h : alistGet st.table tid = some p) :
    (regGet tid st).1 = p ∧
    (regGet tid st).2.table = st.table ∧
    (regGet tid st).2.fresh = st.fresh ∧
    (regGet tid st).2.stores = st.stores := by
  unfold regGet
  by_cases hi : st.init
  · simp only [if_pos hi, h]
    refine ⟨?_, ?_, ?_, ?_⟩ <;> trivial
  · simp only [if_neg hi]
    simp only [show ({ st with init := true } : RegistryState).table = st.table from rfl, h]
    refine ⟨?_, ?_, ?_, ?_⟩ <;> trivial

theorem regGet_miss {st : RegistryState} {tid : TypeId}
    (h : alistGet st.table tid = none) :
    (regGet tid st).1 = st.fresh ∧
    (regGet tid st).2.table = alistInsert st.table tid st.fresh ∧
    (regGet tid st).2.fresh = st.fresh + 1 ∧
    (regGet tid st).2.stores = alistInsert st.stores st.fresh emptyStore := by
  unfold regGet
  by_cases hi : st.init
  · simp only [if_pos hi, h]
    refine ⟨?_, ?_, ?_, ?_⟩ <;> trivial
  · simp only [if_neg hi]
    simp only [show ({ st with init := true } : RegistryState).table = st.table from rfl, h]
    refine ⟨?_, ?_, ?_, ?_⟩ <;> trivial

theorem regGet_lookup_self (tid : TypeId) (st : RegistryState) :
    alistGet (regGet tid st).2.table tid = some (regGet tid st).1 := by
  rcases h : alistGet st.table tid with _ | p
  · have hm := regGet_miss h
    rw [hm.2.1, hm.1]
    exact alistGet_insert_self _ _ _
  · have hh := regGet_hit h
    rw [hh.2.1, hh.1]
    exact h

theorem table_lookup_regGet {st : RegistryState} {tid : TypeId} {h0 : Nat} (tid2 : TypeId)
    (h : alistGet st.table tid = some h0) :
    alistGet (regGet tid2 st).2.table tid = some h0 := by
  rcases h2 : alistGet st.table tid2 with _ | p
  · have hm := regGet_miss h2
    rw [hm.2.1]
    have hne : tid ≠ tid2 := fun he => by rw [he, h2] at h; cases h
    rw [alistGet_insert_ne _ _ _ _ hne]
    exact h
  · have hh := regGet_hit h2
    rw [hh.2.1]
    exact h

theorem table_lookup_applyRegOp (op : RegOp) {st : RegistryState} {tid : TypeId} {h0 : Nat}
    (h : alistGet st.table tid = some h0) :
    alistGet (applyRegOp op st).table tid = some h0 := by
  cases op with
  | getCache tid2 => exact table_lookup_regGet tid2 h
  | saveThrough hh now k v ttl => exact h

theorem table_lookup_applyRegOps (ops : List RegOp) {st : RegistryState} {tid : TypeId}
    {h0 : Nat} (h : alistGet st.table tid = some h0) :
    alistGet (applyRegOps ops st).table tid = some h0 := by
  induction ops generalizing st with
  | nil => exact h
  | cons op rest ih => exact ih (table_lookup_applyRegOp op h)

theorem regWF_of_fields {st st2 : RegistryState} (h : RegWF st) (ht : st2.table = st.table)
    (hf : st2.fresh = st.fresh) : RegWF st2 := by
  rw [RegWF, ht, hf]
  exact h

theorem regWF_empty : RegWF emptyRegistry := by
  constructor
  · intro p hp
    cases hp
  · intro p hp
    cases hp

theorem regWF_applyRegOp (op : RegOp) (st : RegistryState) (h : RegWF st) :
    RegWF (applyRegOp op st) := by
  cases op with
  | saveThrough hh now k v ttl =>
    exact regWF_of_fields h rfl rfl
  | getCache tid =>
    rcases hl : alistGet st.table tid with _ | p
    · have hm := regGet_miss hl
      constructor
      · intro p hp
        rw [show (applyRegOp (RegOp.getCache tid) st).table = (regGet tid st).2.table
          from rfl, hm.2.1] at hp
        rw [show (applyRegOp (RegOp.getCache tid) st).fresh = (regGet tid st).2.fresh
          from rfl, hm.2.2.1]
        rcases List.mem_cons.mp hp with he | hp
        · rw [he]
          omega
        · have := h.1 p (List.mem_of_mem_filter hp)
          omega
      · intro p hp q hq hpq
        rw [show (applyRegOp (RegOp.getCache tid) st).table = (regGet tid st).2.table
          from rfl, hm.2.1] at hp hq
        rcases List.mem_cons.mp hp with he | hp <;>
          rcases List.mem_cons.mp hq with he2 | hq
        · rw [he, he2] at hpq
          exact absurd rfl hpq
        · have := h.1 q (List.mem_of_mem_filter hq)
          rw [he]
          omega
        · have := h.1 p (List.mem_of_mem_filter hp)
          rw [he2]
          omega
        · exact h.2 p (List.mem_of_mem_filter hp) q (List.mem_of_mem_filter hq) hpq
    · have hh := regGet_hit hl
      exact regWF_of_fields h hh.2.1 hh.2.2.1

theorem regWF_applyRegOps (ops : List RegOp) (st : RegistryState) (h : RegWF st) :
    RegWF (applyRegOps ops st) := by
  induction ops generalizing st with
  | nil => exact h
  | cons op rest ih => exact ih _ (regWF_applyRegOp op st h)

/-! Claim theorems. -/

/-- Claim C1. The claim states that once a purge has run at a time strictly
after an entry deadline, `get` returns absence, and that the sweep works by
peeking the smallest-expiration entry of the queue. The code violates this:
the `Ord` implementation of `CacheKeyEntry` compares `other.expire` with
itself, so the comparison is constantly `Equal` (first conjunct), the heap is
unordered, and on the failing input (save key 1 TTL 1000 and key 2 TTL 0 at
time 0, then purge at time 20) the purge peeks the expire-1000 entry even
though the expire-0 entry is in the queue, stops immediately, and key 2 stays
retrievable with its expired deadline 0 still recorded. -/
theorem C1_expiry_violated_by_unordered_heap :
    (∀ (K : Type) (a b : CacheKeyEntry K), cacheKeyEntryCmp a b = Ordering.eq) ∧
    get 2 c1State = some 20 ∧
    alistGet c1State.real_ttl 2 = some 0 ∧
    CacheKeyEntry.mk 0 2 ∈ c1State.next_ttl ∧
    heapPeek c1StateBeforePurge.next_ttl = some (CacheKeyEntry.mk 1000 1) ∧
    CacheKeyEntry.mk 0 2 ∈ c1StateBeforePurge.next_ttl := by
  refine ⟨?_, ?_, ?_, ?_, ?_, ?_⟩
  · intro K a b
    exact Nat.compare_eq_eq.mpr rfl
  · decide
  · decide
  · decide
  · decide
  · decide

/-- Claim C2. Purge removes a key only when the popped queue entry records
exactly the authoritative expiration: if every queue entry for key `k`
disagrees with the authoritative expiration `e`, any purge leaves both the
authoritative expiration and the value mapping of `k` untouched. Moreover, in
the concrete scenario save(100, v1, TTL 10) at time 0, save(100, v2, TTL
1000) at time 5, purge at time 20, the lookup still returns v2. -/
theorem C2_stale_queue_immunity {K V : Type} [DecidableEq K] (fuel now : Nat)
    (s : CacheStore K V) (k : K) (e : Nat)
    (hrt : alistGet s.real_ttl k = some e)
    (hq : ∀ q ∈ s.next_ttl, q.key = k → q.expire ≠ e) :
    (alistGet (do_purge_fuel fuel now s).real_ttl k = some e ∧
     alistGet (do_purge_fuel fuel now s).map k = alistGet s.map k) ∧
    get 100 c2State = some 2 :=
  ⟨do_purge_fuel_frame fuel now s k e hrt hq, by decide⟩

/-- Witness for claim C2 at a concrete input. -/
theorem C2_stale_queue_immunity_witness :
    (alistGet ((⟨[(1, 50)], [⟨99, 1⟩], [(1, 7)]⟩ : CacheStore Nat Nat)).real_ttl 1 =
      some 50) ∧
    (∀ q ∈ ((⟨[(1, 50)], [⟨99, 1⟩], [(1, 7)]⟩ : CacheStore Nat Nat)).next_ttl,
      q.key = 1 → q.expire ≠ 50) ∧
    ((alistGet (do_purge_fuel 1 200 (⟨[(1, 50)], [⟨99, 1⟩], [(1, 7)]⟩ :
        CacheStore Nat Nat)).real_ttl 1 = some 50 ∧
      alistGet (do_purge_fuel 1 200 (⟨[(1, 50)], [⟨99, 1⟩], [(1, 7)]⟩ :
        CacheStore Nat Nat)).map 1 =
        alistGet ((⟨[(1, 50)], [⟨99, 1⟩], [(1, 7)]⟩ : CacheStore Nat Nat)).map 1) ∧
     get 100 c2State = some 2) :=
  ⟨by decide, by decide,
    C2_stale_queue_immunity 1 200 ⟨[(1, 50)], [⟨99, 1⟩], [(1, 7)]⟩ 1 50
      (by decide) (by decide)⟩

/-- Claim C3 counterexample. After save(1, 5, TTL 10) at time 0 followed by
get_and_renew(1, TTL 100) at time 0, the entry is present and its current
authoritative expiration is 100, but no queue entry with expiration 100 for
key 1 is in `next_ttl` (get_and_renew never pushes), and it never appears: a
purge arbitrarily far in the future (time 1000000) still leaves the entry in
the map and adds nothing to the queue, so the entry is not reachable by any
purge sweep. -/
theorem C3_renewed_expiration_never_queued :
    alistGet c3State.map 1 = some 5 ∧
    alistGet c3State.real_ttl 1 = some 100 ∧
    CacheKeyEntry.mk 100 1 ∉ c3State.next_ttl ∧
    get 1 (do_purge 1000000 c3State) = some 5 ∧
    alistGet (do_purge 1000000 c3State).real_ttl 1 = some 100 ∧
    CacheKeyEntry.mk 100 1 ∉ (do_purge 1000000 c3State).next_ttl := by
  refine ⟨?_, ?_, ?_, ?_, ?_, ?_⟩ <;> decide

/-- Claim C3 as amended: every expiration recorded by `save` is present in
`next_ttl` from the moment of the save (the pushed pair equals the recorded
authoritative expiration), while an expiration set by `get_and_renew` is
never pushed onto `next_ttl` (the queue is unchanged by renewal). -/
theorem C3_amended_save_expiration_queued {K V : Type} [DecidableEq K]
    (now ttl : Nat) (k : K) (v : V) (s : CacheStore K V) :
    (alistGet (save now k v ttl s).2.real_ttl k = some (now + ttl) ∧
     CacheKeyEntry.mk (now + ttl) k ∈ (save now k v ttl s).2.next_ttl) ∧
    (∀ (now1 ttl1 : Nat) (k1 : K),
      (get_and_renew now1 k1 ttl1 s).2.next_ttl = s.next_ttl) := by
  constructor
  · constructor
    · rw [save_snd_unfold]
      exact alistGet_insert_self _ _ _
    · rw [save_snd_unfold]
      show _ ∈ heapPush cacheKeyEntryCmp (do_purge now s).next_ttl ⟨now + ttl, k⟩
      rw [heapPush_eq_append]
      exact List.mem_append_right _ (List.mem_singleton.mpr rfl)
  · intro now1 ttl1 k1
    rcases hm : alistGet s.map k1 with _ | v1
    · rw [get_and_renew_of_none hm]
    · rw [get_and_renew_of_some hm]

/-- Claim C4. Whatever the registry state and whatever operations (further
cache requests for any identities, saves through any handles) happen in
between, a second `regGet` for the same type identity returns the same handle
as the first, and a save through the first handle is visible through the
second handle for the same identity. -/
theorem C4_registry_idempotent_shared_store (st : RegistryState) (tid : TypeId)
    (ops : List RegOp) (now k v ttl : Nat) :
    (regGet tid (applyRegOps ops (regGet tid st).2)).1 = (regGet tid st).1 ∧
    regGetVal
        (regSave (regGet tid st).1 now k v ttl
          (regGet tid (applyRegOps ops (regGet tid st).2)).2)
        (regGet tid (applyRegOps ops (regGet tid st).2)).1 k = some v := by
  have hL1 := regGet_lookup_self tid st
  have hL2 := table_lookup_applyRegOps ops hL1
  have hh := regGet_hit hL2
  constructor
  · exact hh.1
  · rw [hh.1]
    unfold regGetVal regSave storeOf
    rw [alistGet_insert_self]
    exact get_save_self _ _ _ _ _

/-- Claim C5. The type-pair identity is injective over ordered pairs and
distinguishes swapped pairs, and in any well-formed registry two distinct
identities receive distinct handles backed by independent stores: a save
through the handle of one identity does not change what a lookup through the
handle of the other identity returns. -/
theorem C5_type_isolation (st : RegistryState) (tid1 tid2 : TypeId) (now k v ttl : Nat)
    (hwf : RegWF st) (hne : tid1 ≠ tid2) :
    (regGet tid2 (regGet tid1 st).2).1 ≠ (regGet tid1 st).1 ∧
    (∀ a b a1 b1 : Nat, TypeId.mk a b = TypeId.mk a1 b1 → a = a1 ∧ b = b1) ∧
    (∀ a b : Nat, a ≠ b → TypeId.mk a b ≠ TypeId.mk b a) ∧
    regGetVal
        (regSave (regGet tid1 st).1 now k v ttl (regGet tid2 (regGet tid1 st).2).2)
        (regGet tid2 (regGet tid1 st).2).1 k
      = regGetVal (regGet tid2 (regGet tid1 st).2).2
          (regGet tid2 (regGet tid1 st).2).1 k := by
  have hne21 : tid2 ≠ tid1 := fun he => hne he.symm
  have hmain : (regGet tid2 (regGet tid1 st).2).1 ≠ (regGet tid1 st).1 := by
    rcases ha : alistGet st.table tid1 with _ | p1
    · have hm1 := regGet_miss ha
      rcases hb : alistGet (regGet tid1 st).2.table tid2 with _ | p2
      · have hm2 := regGet_miss hb
        rw [hm2.1, hm1.1, hm1.2.2.1]
        omega
      · have hh2 := regGet_hit hb
        rw [hh2.1, hm1.1]
        rw [hm1.2.1] at hb
        rw [alistGet_insert_ne _ _ _ _ hne21] at hb
        have hmem := alistGet_mem hb
        have := hwf.1 _ hmem
        omega
    · have hh1 := regGet_hit ha
      rcases hb : alistGet (regGet tid1 st).2.table tid2 with _ | p2
      · have hm2 := regGet_miss hb
        rw [hm2.1, hh1.1, hh1.2.2.1]
        have hmem := alistGet_mem ha
        have := hwf.1 _ hmem
        omega
      · have hh2 := regGet_hit hb
        rw [hh2.1, hh1.1]
        rw [hh1.2.1] at hb
        have hmem1 := alistGet_mem ha
        have hmem2 := alistGet_mem hb
        exact hwf.2 _ hmem2 _ hmem1 hne21
  refine ⟨hmain, ?_, ?_, ?_⟩
  · intro a b a1 b1 h
    injection h with h1 h2
    exact ⟨h1, h2⟩
  · intro a b hab he
    injection he with h1 h2
    exact hab h1
  · unfold regGetVal regSave storeOf
    rw [alistGet_insert_ne _ _ _ _ hmain]

/-- Witness for claim C5 at a concrete input: the empty registry, the
identity of the pair (type 0, type 1) and its swap. -/
theorem C5_type_isolation_witness :
    RegWF emptyRegistry ∧ TypeId.mk 0 1 ≠ TypeId.mk 1 0 ∧
    ((regGet ⟨1, 0⟩ (regGet ⟨0, 1⟩ emptyRegistry).2).1 ≠ (regGet ⟨0, 1⟩ emptyRegistry).1 ∧
     (∀ a b a1 b1 : Nat, TypeId.mk a b = TypeId.mk a1 b1 → a = a1 ∧ b = b1) ∧
     (∀ a b : Nat, a ≠ b → TypeId.mk a b ≠ TypeId.mk b a) ∧
     regGetVal
        (regSave (regGet ⟨0, 1⟩ emptyRegistry).1 0 7 77 999
          (regGet ⟨1, 0⟩ (regGet ⟨0, 1⟩ emptyRegistry).2).2)
        (regGet ⟨1, 0⟩ (regGet ⟨0, 1⟩ emptyRegistry).2).1 7
      = regGetVal (regGet ⟨1, 0⟩ (regGet ⟨0, 1⟩ emptyRegistry).2).2
          (regGet ⟨1, 0⟩ (regGet ⟨0, 1⟩ emptyRegistry).2).1 7) :=
  ⟨regWF_empty, by decide,
    C5_type_isolation emptyRegistry ⟨0, 1⟩ ⟨1, 0⟩ 0 7 77 999 regWF_empty (by decide)⟩

/-- Claim C6. For a present key, `get_and_renew` returns exactly the stored
value, leaves the value map and the priority queue unchanged, and rewrites
only the authoritative expiration of that key to now + ttl; for an absent
key it returns nothing and the whole store is unchanged. -/
theorem C6_get_and_renew_contract {K V : Type} [DecidableEq K] (now ttl : Nat) (k : K)
    (s : CacheStore K V) :
    (get_and_renew now k ttl s).1 = alistGet s.map k ∧
    (get_and_renew now k ttl s).2.map = s.map ∧
    (get_and_renew now k ttl s).2.next_ttl = s.next_ttl ∧
    (∀ v, alistGet s.map k = some v →
      alistGet (get_and_renew now k ttl s).2.real_ttl k = some (now + ttl) ∧
      ∀ k1, k1 ≠ k →
        alistGet (get_and_renew now k ttl s).2.real_ttl k1 = alistGet s.real_ttl k1) ∧
    (alistGet s.map k = none → (get_and_renew now k ttl s).2 = s) := by
  rcases hm : alistGet s.map k with _ | v0
  · rw [get_and_renew_of_none hm]
    refine ⟨rfl, rfl, rfl, ?_, fun _ => rfl⟩
    intro v hv
    cases hv
  · rw [get_and_renew_of_some hm]
    refine ⟨rfl, rfl, rfl, ?_, ?_⟩
    · intro v hv
      exact ⟨alistGet_insert_self _ _ _, fun k1 hk1 => alistGet_insert_ne _ _ _ _ hk1⟩
    · intro hn
      cases hn

/-- Witness for claim C6 at a concrete input. -/
theorem C6_get_and_renew_contract_witness :
    (alistGet ((⟨[(1, 10)], [⟨10, 1⟩], [(1, 5)]⟩ : CacheStore Nat Nat)).map 1 = some 5) ∧
    (2 ≠ 1) ∧
    ((get_and_renew 3 1 4 (⟨[(1, 10)], [⟨10, 1⟩], [(1, 5)]⟩ : CacheStore Nat Nat)).1 =
        alistGet ((⟨[(1, 10)], [⟨10, 1⟩], [(1, 5)]⟩ : CacheStore Nat Nat)).map 1 ∧
      alistGet
          (get_and_renew 3 1 4
            (⟨[(1, 10)], [⟨10, 1⟩], [(1, 5)]⟩ : CacheStore Nat Nat)).2.real_ttl 1 =
        some 7 ∧
      alistGet
          (get_and_renew 3 1 4
            (⟨[(1, 10)], [⟨10, 1⟩], [(1, 5)]⟩ : CacheStore Nat Nat)).2.real_ttl 2 =
        alistGet ((⟨[(1, 10)], [⟨10, 1⟩], [(1, 5)]⟩ : CacheStore Nat Nat)).real_ttl 2) := by
  have h := C6_get_and_renew_contract (K := Nat) (V := Nat) 3 4 1
    ⟨[(1, 10)], [⟨10, 1⟩], [(1, 5)]⟩
  have h4 := h.2.2.2.1 5 (by decide)
  exact ⟨by decide, by decide, h.1, h4.1, h4.2 2 (by decide)⟩

/-- Claim C7. The `get` operation is a pure read: it changes no part of the
store, and its result is exactly the value-map lookup, with no expiration
check. Consequently (concrete scenario) immediately after save(3, TTL 0) at
time 50 a lookup of the different key 2 still returns the value saved for
key 2 even though its authoritative deadline 40 lies before time 50. -/
theorem C7_get_is_pure_read {K V : Type} [DecidableEq K] :
    (∀ (s : CacheStore K V) (k : K), applyOp (Op.get k) s = s) ∧
    (∀ (s : CacheStore K V) (k : K), get k s = alistGet s.map k) ∧
    (get 2 c7State = some 20 ∧ alistGet c7State.real_ttl 2 = some 40 ∧ 40 < 50) := by
  refine ⟨fun s k => rfl, fun s k => rfl, by decide, by decide, by decide⟩

/-- Claim C8. In every store reachable from the empty store by any sequence
of save, get, renew and purge operations, a key present in the value map also
has an entry in the authoritative expiration map. -/
theorem C8_map_keys_have_real_ttl {K V : Type} [DecidableEq K] (tr : List (Op K V)) (k : K)
    (h : (alistGet (execTrace tr (emptyStore : CacheStore K V)).map k).isSome = true) :
    (alistGet (execTrace tr (emptyStore : CacheStore K V)).real_ttl k).isSome = true := by
  refine keyInv_execTrace tr emptyStore ?_ k h
  intro k1 h1
  cases h1

/-- Witness for claim C8 at a concrete input. -/
theorem C8_map_keys_have_real_ttl_witness :
    ((alistGet (execTrace [Op.save 0 1 2 3] (emptyStore : CacheStore Nat Nat)).map 1).isSome
      = true) ∧
    ((alistGet (execTrace [Op.save 0 1 2 3]
        (emptyStore : CacheStore Nat Nat)).real_ttl 1).isSome = true) :=
  ⟨by decide, C8_map_keys_have_real_ttl [Op.save 0 1 2 3] 1 (by decide)⟩

/-- Claim C9. Under the store mutex every concurrent history of save, get and
purge calls is serialised into some interleaving; for every such interleaving
in which each operation runs by some time bound T, every save stores the
value determined by its key with a deadline beyond T (so nothing expires
within the history), and some thread saves key k, the final lookup of k
returns its value: no entry is lost and no state is corrupted, whatever the
interleaving. -/
theorem C9_concurrent_saves_all_retrievable {K V : Type} [DecidableEq K]
    (tr : List (Op K V)) (T : Nat) (val : K → V) (k : K)
    (hops : ∀ op ∈ tr, opOk T val op)
    (hsv : ∃ now ttl, Op.save now k (val k) ttl ∈ tr) :
    get k (execTrace tr emptyStore) = some (val k) := by
  refine saved_key_retrievable T val tr emptyStore k hops ?_ hsv
  intro q hq
  cases hq

/-- Witness for claim C9 at a concrete input: two saves of distinct keys and
a purge, in one of the possible interleavings. -/
theorem C9_concurrent_saves_all_retrievable_witness :
    (∀ op ∈ ([Op.save 0 1 10 100, Op.save 0 2 20 100, Op.purge 50] : List (Op Nat Nat)),
      opOk 50 (fun i => 10 * i) op) ∧
    (∃ now ttl,
      Op.save now 2 ((fun i : Nat => 10 * i) 2) ttl ∈
        ([Op.save 0 1 10 100, Op.save 0 2 20 100, Op.purge 50] : List (Op Nat Nat))) ∧
    get 2 (execTrace ([Op.save 0 1 10 100, Op.save 0 2 20 100, Op.purge 50] :
      List (Op Nat Nat)) emptyStore) = some ((fun i : Nat => 10 * i) 2) := by
  have hops : ∀ op ∈ ([Op.save 0 1 10 100, Op.save 0 2 20 100, Op.purge 50] :
      List (Op Nat Nat)), opOk 50 (fun i => 10 * i) op := by
    intro op hop
    simp only [List.mem_cons, List.not_mem_nil, or_false] at hop
    rcases hop with rfl | rfl | rfl
    · show 10 = 10 * 1 ∧ (0 : Nat) ≤ 50 ∧ (50 : Nat) < 0 + 100
      refine ⟨by omega, by omega, by omega⟩
    · show 20 = 10 * 2 ∧ (0 : Nat) ≤ 50 ∧ (50 : Nat) < 0 + 100
      refine ⟨by omega, by omega, by omega⟩
    · show (50 : Nat) ≤ 50
      omega
  have hsv : ∃ now ttl,
      Op.save now 2 ((fun i : Nat => 10 * i) 2) ttl ∈
        ([Op.save 0 1 10 100, Op.save 0 2 20 100, Op.purge 50] : List (Op Nat Nat)) :=
    ⟨0, 100, by simp⟩
  exact ⟨hops, hsv,
    C9_concurrent_saves_all_retrievable _ 50 (fun i => 10 * i) 2 hops hsv⟩

/-- Claim C10. The purge loop pops one element of the finite priority queue
per iteration and otherwise stops, so it reaches its exit within
`next_ttl.length` iterations: running the loop body with any iteration budget
at least the queue length gives exactly `do_purge`, the loop run to
completion. -/
theorem C10_purge_terminates_within_heap_size {K V : Type} [DecidableEq K]
    (fuel now : Nat) (s : CacheStore K V) (h : s.next_ttl.length ≤ fuel) :
    do_purge_fuel fuel now s = do_purge now s :=
  do_purge_fuel_congr fuel s.next_ttl.length now s h (Nat.le_refl _)

/-- Witness for claim C10 at a concrete input. -/
theorem C10_purge_terminates_witness :
    ((⟨[(1, 5)], [⟨5, 1⟩, ⟨9, 2⟩], [(1, 3)]⟩ : CacheStore Nat Nat)).next_ttl.length ≤ 7 ∧
    do_purge_fuel 7 100 (⟨[(1, 5)], [⟨5, 1⟩, ⟨9, 2⟩], [(1, 3)]⟩ : CacheStore Nat Nat) =
      do_purge 100 (⟨[(1, 5)], [⟨5, 1⟩, ⟨9, 2⟩], [(1, 3)]⟩ : CacheStore Nat Nat) :=
  ⟨by decide,
    C10_purge_terminates_within_heap_size 7 100 ⟨[(1, 5)], [⟨5, 1⟩, ⟨9, 2⟩], [(1, 3)]⟩
      (by decide)⟩

end Kamipad
